import Mathlib

/-!
Verification of the live-status reconciliation core of the remote-monitor
component (`remote_monitor/message_builder.py`).

The Python module keeps three module-level dicts (defined in `config.py`):

* `active_block_state : dict[str, str]` — script name to colour
  ("green" for RUNNING, "red" for STOPPED);
* `block_start_time : dict[str, datetime]` — script name to the instant of
  its last state change (the spec's `since`);
* `script_history : dict[str, list[datetime]]` — script name to the list of
  its activation instants (the spec's `activation_history`).

We embed Python dicts as ordered association lists (insertion order is the
list order, exactly as CPython 3.7+ dicts preserve it), timestamps and
durations as `Int`, and the two operations `update_live_status`
(the spec's `reconcile`) and `rollover_blocks` (the spec's
`enforce_capacity`) as state-passing functions.  The one dict subscript
that Python could fail on (`active_block_state[script]` in the second
reconciliation loop) and the `next(iter(state))` call in the eviction loop
are modelled with `Option`, so totality of the code is a theorem, not a
modelling artifact.
-/

namespace RemoteMonitor

/-- The two colour values the reconciler ever writes: "green" (spec status
RUNNING) and "red" (spec status STOPPED). -/
inductive Color where
  | green
  | red
deriving DecidableEq, Repr

namespace PyDict

/-- Python `d.get(k)` / `d[k]`: the value stored at the first (only)
occurrence of key `k`. -/
def find? {α : Type} : List (String × α) → String → Option α
  | [], _ => none
  | (k, v) :: rest, key => if k = key then some v else find? rest key

/-- Python `d[k] = v`: replace in place when the key is present (keeping its
position), append at the end otherwise. -/
def insert {α : Type} : List (String × α) → String → α → List (String × α)
  | [], key, v => [(key, v)]
  | (k, w) :: rest, key, v =>
      if k = key then (k, v) :: rest else (k, w) :: insert rest key v

/-- Python `del d[k]` / `d.pop(k, None)`: remove the first occurrence of the
key (a no-op when absent, as for `pop` with a default). -/
def erase {α : Type} : List (String × α) → String → List (String × α)
  | [], _ => []
  | (k, w) :: rest, key =>
      if k = key then rest else (k, w) :: erase rest key

/-- Python `list(d.keys())`: the keys in insertion order. -/
def keys {α : Type} (d : List (String × α)) : List String := d.map Prod.fst

/-- Well-formedness of a Python dict: its keys are pairwise distinct. -/
def NodupKeys {α : Type} (d : List (String × α)) : Prop := (keys d).Nodup

instance {α : Type} (d : List (String × α)) : Decidable (NodupKeys d) :=
  inferInstanceAs (Decidable (keys d).Nodup)

end PyDict

/-- The Entity State Store: the three shared dicts of `config.py`, in one
record so state passing is explicit. -/
structure Store where
  active_block_state : List (String × Color)
  block_start_time : List (String × Int)
  script_history : List (String × List Int)
deriving DecidableEq, Repr

/-- The spec's `status[name]`. -/
def statusOf (st : Store) (name : String) : Option Color :=
  PyDict.find? st.active_block_state name

/-- The spec's `since[name]`. -/
def sinceOf (st : Store) (name : String) : Option Int :=
  PyDict.find? st.block_start_time name

/-- The spec's `activation_history[name]`. -/
def historyOf (st : Store) (name : String) : Option (List Int) :=
  PyDict.find? st.script_history name

/-- The spec's store key-set invariant: every name present in `status` has
a corresponding `since` entry. -/
def SinceInvariant (st : Store) : Prop :=
  ∀ n, statusOf st n ≠ none → sinceOf st n ≠ none

/-- The shared body of the two activating branches of the first loop of
`update_live_status`: set green, record the start time, and
`script_history.setdefault(script, []).append(now)`. -/
def activate (now : Int) (st : Store) (script : String) : Store :=
  { active_block_state := PyDict.insert st.active_block_state script Color.green
    block_start_time := PyDict.insert st.block_start_time script now
    script_history := PyDict.insert st.script_history script
      ((PyDict.find? st.script_history script).getD [] ++ [now]) }

/-- One iteration of the first loop of `update_live_status`
(`for script in currently_active`). -/
def processActive (now : Int) (st : Store) (script : String) : Store :=
  match PyDict.find? st.active_block_state script with
  | none => activate now st script
  | some c => if c = Color.green then st else activate now st script

/-- One iteration of the second loop of `update_live_status`
(`for script in list(active_block_state.keys())`).  The subscript
`active_block_state[script]` raises `KeyError` when the key is gone, which
we model as `none`. -/
def processInactive (currently_active : List String) (cycle_time now : Int)
    (st : Store) (script : String) : Option Store :=
  if currently_active.contains script then some st
  else
    match PyDict.find? st.active_block_state script with
    | none => none
    | some Color.green =>
        some { st with
          active_block_state := PyDict.insert st.active_block_state script Color.red
          block_start_time := PyDict.insert st.block_start_time script now }
    | some Color.red =>
        match PyDict.find? st.block_start_time script with
        | none => some st
        | some stopped_at =>
            if cycle_time ≤ now - stopped_at then
              some { st with
                active_block_state := PyDict.erase st.active_block_state script
                block_start_time := PyDict.erase st.block_start_time script }
            else some st

/-- `update_live_status(currently_active, cycle_time)` of
`message_builder.py`, the spec's `reconcile`.  `currently_active` is the
iteration order of the Python set; `now` is the instant `datetime.now()`
returns at the top of the call. -/
def update_live_status (currently_active : List String) (cycle_time now : Int)
    (st : Store) : Option Store :=
  let st1 := currently_active.foldl (processActive now) st
  (PyDict.keys st1.active_block_state).foldlM
    (processInactive currently_active cycle_time now) st1

/-- The first pass of `rollover_blocks`: walk the precomputed list of red
keys; before each deletion check `len(state) <= max_blocks` and break when
capacity is reached; otherwise delete the key from `state` and pop it from
`block_start_time`. -/
def rolloverPass1 (maxBlocks : Int) :
    List String → List (String × Color) → List (String × Int) →
      List (String × Color) × List (String × Int)
  | [], abs, bst => (abs, bst)
  | key :: rest, abs, bst =>
      if (abs.length : Int) ≤ maxBlocks then (abs, bst)
      else rolloverPass1 maxBlocks rest (PyDict.erase abs key) (PyDict.erase bst key)

/-- The second pass of `rollover_blocks`:
`while len(state) > max_blocks: oldest = next(iter(state)); del state[oldest];
block_start_time.pop(oldest, None)`.  Since `del` of the first key removes
the head entry, the loop is structural recursion on the state list.
`next(iter(state))` on an empty dict raises `StopIteration` (reachable only
for a negative `max_blocks`), modelled as `none`. -/
def rolloverPass2 (maxBlocks : Int) :
    List (String × Color) → List (String × Int) →
      Option (List (String × Color) × List (String × Int))
  | [], bst => if (0 : Int) ≤ maxBlocks then some ([], bst) else none
  | (k, v) :: rest, bst =>
      if (((k, v) :: rest).length : Int) ≤ maxBlocks then some ((k, v) :: rest, bst)
      else rolloverPass2 maxBlocks rest (PyDict.erase bst k)

/-- `rollover_blocks(state, max_blocks)` of `message_builder.py`, the spec's
`enforce_capacity`, applied to the store whose `active_block_state` is the
`state` argument.  The first pass runs only when the store is over capacity
and walks `red_keys = [k for k, v in state.items() if v == "red"]`;
`script_history` is never touched. -/
def rollover_blocks (maxBlocks : Int) (st : Store) : Option Store :=
  let p1 :=
    if (st.active_block_state.length : Int) > maxBlocks then
      rolloverPass1 maxBlocks
        (PyDict.keys (st.active_block_state.filter (fun p => p.2 == Color.red)))
        st.active_block_state st.block_start_time
    else (st.active_block_state, st.block_start_time)
  match rolloverPass2 maxBlocks p1.1 p1.2 with
  | none => none
  | some (abs, bst) =>
      some { active_block_state := abs, block_start_time := bst
             script_history := st.script_history }

/-- Modelled from the spec's words (§4.3, step 1): evict the
oldest-inserted STOPPED entry, i.e. remove the first red entry of the
status map. -/
def evictFirstStopped : List (String × Color) → List (String × Color)
  | [] => []
  | (k, v) :: rest =>
      if v = Color.red then rest else (k, v) :: evictFirstStopped rest

/-- Modelled from the spec's words (§4.3, step 1): while the store exceeds
capacity and STOPPED entries remain, evict STOPPED entries
oldest-inserted-first. -/
def specPhase1 (maxEntries : Nat) (abs : List (String × Color)) :
    List (String × Color) :=
  if _hg : maxEntries < abs.length ∧ abs.any (fun p => p.2 == Color.red) then
    specPhase1 maxEntries (evictFirstStopped abs)
  else abs
termination_by abs.length
decreasing_by
  · have hmem : ∃ p ∈ abs, p.2 = Color.red := by
      simpa [List.any_eq_true] using _hg.2
    clear _hg
    induction abs with
    | nil => simp at hmem
    | cons hd tl ih =>
        by_cases hr : hd.2 = Color.red
        · simp [evictFirstStopped, hr]
        · obtain ⟨p, hp, hpr⟩ := hmem
          rcases List.mem_cons.mp hp with rfl | hp2
          · exact absurd hpr hr
          · simpa [evictFirstStopped, hr] using
              Nat.succ_lt_succ (ih ⟨p, hp2, hpr⟩)

/-- Modelled from the spec's words (§4.3, step 2): while the store still
exceeds capacity, evict entries oldest-inserted-first regardless of
status. -/
def specPhase2 (maxEntries : Nat) : List (String × Color) → List (String × Color)
  | [] => []
  | p :: rest =>
      if (p :: rest).length ≤ maxEntries then p :: rest
      else specPhase2 maxEntries rest

/-- Modelled from the spec's words (§4.3): the deterministic two-pass
eviction on the status map. -/
def enforce_capacity_spec (maxEntries : Nat) (abs : List (String × Color)) :
    List (String × Color) :=
  specPhase2 maxEntries (specPhase1 maxEntries abs)

end RemoteMonitor

namespace RemoteMonitor

/-- Scenario A store: "a" freshly observed at `t`. -/
def storeA (t : Int) : Store :=
  { active_block_state := [("a", Color.green)]
    block_start_time := [("a", t)]
    script_history := [("a", [t])] }

/-- Scenario B store: "a" stopped at `t + 10`, first seen at `t`. -/
def storeB (t : Int) : Store :=
  { active_block_state := [("a", Color.red)]
    block_start_time := [("a", t + 10)]
    script_history := [("a", [t])] }

/-- Scenario C store: "a" evicted after its linger expired; its history
survives (the code removes only `active_block_state` and
`block_start_time`). -/
def storeC (t : Int) : Store :=
  { active_block_state := []
    block_start_time := []
    script_history := [("a", [t])] }

/-- Scenario D store: "a" reactivated at `t + 15`. -/
def storeD (t : Int) : Store :=
  { active_block_state := [("a", Color.green)]
    block_start_time := [("a", t + 15)]
    script_history := [("a", [t, t + 15])] }

/-- The keys of a non-empty dict are the head key followed by the tail's
keys. -/
theorem PyDict.keys_cons {α : Type} (k : String) (v : α)
    (tl : List (String × α)) :
    PyDict.keys ((k, v) :: tl) = k :: PyDict.keys tl := rfl

/-- Looking up the key just written returns the new value. -/
theorem PyDict.find?_insert_self {α : Type} (d : List (String × α)) (k : String)
    (v : α) : PyDict.find? (PyDict.insert d k v) k = some v := by
  induction d with
  | nil => simp [PyDict.insert, PyDict.find?]
  | cons hd tl ih =>
      obtain ⟨k0, v0⟩ := hd
      by_cases h : k0 = k <;> simp [PyDict.insert, PyDict.find?, h, ih]

/-- Writing one key leaves lookups of other keys unchanged. -/
theorem PyDict.find?_insert_ne {α : Type} (d : List (String × α)) (k e : String)
    (v : α) (h : e ≠ k) :
    PyDict.find? (PyDict.insert d k v) e = PyDict.find? d e := by
  induction d with
  | nil => simp [PyDict.insert, PyDict.find?, Ne.symm h]
  | cons hd tl ih =>
      obtain ⟨k0, v0⟩ := hd
      by_cases hk : k0 = k
      · subst hk
        simp [PyDict.insert, PyDict.find?, Ne.symm h]
      · by_cases he : k0 = e <;>
          simp [PyDict.insert, PyDict.find?, hk, he, ih, h, Ne.symm h]

/-- Deleting one key leaves lookups of other keys unchanged. -/
theorem PyDict.find?_erase_ne {α : Type} (d : List (String × α)) (k e : String)
    (h : e ≠ k) : PyDict.find? (PyDict.erase d k) e = PyDict.find? d e := by
  induction d with
  | nil => simp [PyDict.erase, PyDict.find?]
  | cons hd tl ih =>
      obtain ⟨k0, v0⟩ := hd
      by_cases hk : k0 = k
      · subst hk
        simp [PyDict.erase, PyDict.find?, Ne.symm h]
      · by_cases he : k0 = e <;>
          simp [PyDict.erase, PyDict.find?, hk, he, ih, h, Ne.symm h]

/-- A key is among the dict's keys exactly when looking it up succeeds. -/
theorem PyDict.mem_keys_iff {α : Type} (d : List (String × α)) (e : String) :
    e ∈ PyDict.keys d ↔ PyDict.find? d e ≠ none := by
  induction d with
  | nil => simp [PyDict.keys, PyDict.find?]
  | cons hd tl ih =>
      obtain ⟨k0, v0⟩ := hd
      rw [PyDict.keys_cons]
      by_cases h : k0 = e
      · simp [PyDict.find?, h]
      · simp [PyDict.find?, h, ih, Ne.symm h]

/-- The keys after a deletion are the keys with the first occurrence of the
deleted key removed. -/
theorem PyDict.keys_erase {α : Type} (d : List (String × α)) (k : String) :
    PyDict.keys (PyDict.erase d k) = (PyDict.keys d).erase k := by
  induction d with
  | nil => simp [PyDict.erase, PyDict.keys]
  | cons hd tl ih =>
      obtain ⟨k0, v0⟩ := hd
      by_cases h : k0 = k
      · rw [PyDict.keys_cons]
        simp [PyDict.erase, h, List.erase_cons]
      · rw [PyDict.keys_cons, List.erase_cons]
        simp only [PyDict.erase, h, if_false, PyDict.keys_cons, ih]
        rw [if_neg (by simp [h])]

/-- The keys after a write: unchanged when the key was present, the key
appended at the end otherwise. -/
theorem PyDict.keys_insert {α : Type} (d : List (String × α)) (k : String)
    (v : α) :
    PyDict.keys (PyDict.insert d k v) =
      if k ∈ PyDict.keys d then PyDict.keys d else PyDict.keys d ++ [k] := by
  induction d with
  | nil => simp [PyDict.insert, PyDict.keys]
  | cons hd tl ih =>
      obtain ⟨k0, v0⟩ := hd
      by_cases h : k0 = k
      · subst h
        simp [PyDict.insert, PyDict.keys_cons]
      · by_cases hm : k ∈ PyDict.keys tl
        · rw [PyDict.keys_cons, if_pos (by simp [hm])]
          simp [PyDict.insert, h, PyDict.keys_cons, ih, hm]
        · rw [PyDict.keys_cons, if_neg (by simp [hm, Ne.symm h])]
          simp [PyDict.insert, h, PyDict.keys_cons, ih, hm]

/-- Writes preserve dict well-formedness. -/
theorem PyDict.nodupKeys_insert {α : Type} (d : List (String × α)) (k : String)
    (v : α) (h : PyDict.NodupKeys d) : PyDict.NodupKeys (PyDict.insert d k v) := by
  unfold PyDict.NodupKeys at h ⊢
  rw [PyDict.keys_insert]
  by_cases hm : k ∈ PyDict.keys d
  · simpa [hm] using h
  · simpa [hm, List.nodup_append] using h

/-- Deletions preserve dict well-formedness. -/
theorem PyDict.nodupKeys_erase {α : Type} (d : List (String × α)) (k : String)
    (h : PyDict.NodupKeys d) : PyDict.NodupKeys (PyDict.erase d k) := by
  unfold PyDict.NodupKeys at h ⊢
  rw [PyDict.keys_erase]
  exact h.erase k

/-- In a well-formed dict, looking up a deleted key fails. -/
theorem PyDict.find?_erase_self {α : Type} (d : List (String × α)) (k : String)
    (h : PyDict.NodupKeys d) : PyDict.find? (PyDict.erase d k) k = none := by
  induction d with
  | nil => simp [PyDict.erase, PyDict.find?]
  | cons hd tl ih =>
      obtain ⟨k0, v0⟩ := hd
      unfold PyDict.NodupKeys PyDict.keys at h
      simp only [List.map_cons, List.nodup_cons] at h
      by_cases hk : k0 = k
      · subst hk
        have : PyDict.find? tl k0 = none := by
          by_contra hne
          exact h.1 ((PyDict.mem_keys_iff tl k0).mpr hne)
        simpa [PyDict.erase] using this
      · simpa [PyDict.erase, PyDict.find?, hk] using ih h.2

/-- In a well-formed dict, the head key does not occur in the tail. -/
theorem PyDict.find?_tail_of_nodup {α : Type} (k : String) (v : α)
    (tl : List (String × α)) (h : PyDict.NodupKeys ((k, v) :: tl)) :
    PyDict.find? tl k = none := by
  unfold PyDict.NodupKeys PyDict.keys at h
  simp only [List.map_cons, List.nodup_cons] at h
  by_contra hne
  exact h.1 ((PyDict.mem_keys_iff tl k).mpr hne)

/-- `activate` at its own key: status green, start time `now`, history
appended. -/
theorem activate_self (now : Int) (st : Store) (k : String) :
    statusOf (activate now st k) k = some Color.green ∧
    sinceOf (activate now st k) k = some now ∧
    historyOf (activate now st k) k =
      some ((historyOf st k).getD [] ++ [now]) := by
  refine ⟨?_, ?_, ?_⟩ <;>
    simp [activate, statusOf, sinceOf, historyOf, PyDict.find?_insert_self]

/-- `activate` leaves every other key's fields unchanged. -/
theorem activate_ne (now : Int) (st : Store) (k e : String) (h : e ≠ k) :
    statusOf (activate now st k) e = statusOf st e ∧
    sinceOf (activate now st k) e = sinceOf st e ∧
    historyOf (activate now st k) e = historyOf st e := by
  refine ⟨?_, ?_, ?_⟩ <;>
    simp [activate, statusOf, sinceOf, historyOf,
      PyDict.find?_insert_ne _ _ _ _ h]

/-- A first-loop iteration leaves every other key's fields unchanged. -/
theorem processActive_ne (now : Int) (st : Store) (k e : String) (h : e ≠ k) :
    statusOf (processActive now st k) e = statusOf st e ∧
    sinceOf (processActive now st k) e = sinceOf st e ∧
    historyOf (processActive now st k) e = historyOf st e := by
  unfold processActive
  cases hf : PyDict.find? st.active_block_state k with
  | none => exact activate_ne now st k e h
  | some c =>
      by_cases hc : c = Color.green
      · simp [hc]
      · simpa [hc] using activate_ne now st k e h

/-- A first-loop iteration on an already-green script is a no-op. -/
theorem processActive_green (now : Int) (st : Store) (k : String)
    (h : statusOf st k = some Color.green) : processActive now st k = st := by
  unfold processActive
  rw [show PyDict.find? st.active_block_state k = some Color.green from h]
  simp

/-- A first-loop iteration on a script that is not green activates it. -/
theorem processActive_not_green (now : Int) (st : Store) (k : String)
    (h : statusOf st k ≠ some Color.green) :
    processActive now st k = activate now st k := by
  unfold processActive
  cases hf : PyDict.find? st.active_block_state k with
  | none => rfl
  | some c =>
      have hc : c ≠ Color.green := fun hg => h (by rw [statusOf, hf, hg])
      simp [hc]

/-- A first-loop iteration preserves status-dict well-formedness. -/
theorem processActive_nodup (now : Int) (st : Store) (k : String)
    (h : PyDict.NodupKeys st.active_block_state) :
    PyDict.NodupKeys (processActive now st k).active_block_state := by
  unfold processActive
  cases PyDict.find? st.active_block_state k with
  | none => exact PyDict.nodupKeys_insert _ _ _ h
  | some c =>
      by_cases hc : c = Color.green
      · simpa [hc] using h
      · simpa [hc] using PyDict.nodupKeys_insert st.active_block_state k Color.green h

/-- A first-loop iteration preserves since-dict well-formedness. -/
theorem processActive_nodup_bst (now : Int) (st : Store) (k : String)
    (h : PyDict.NodupKeys st.block_start_time) :
    PyDict.NodupKeys (processActive now st k).block_start_time := by
  unfold processActive
  cases PyDict.find? st.active_block_state k with
  | none => exact PyDict.nodupKeys_insert _ _ _ h
  | some c =>
      by_cases hc : c = Color.green
      · simpa [hc] using h
      · simpa [hc] using PyDict.nodupKeys_insert st.block_start_time k now h

/-- The whole first loop leaves the fields of a name outside the active
snapshot unchanged. -/
theorem foldl_processActive_not_mem (now : Int) (active : List String)
    (st : Store) (e : String) (h : e ∉ active) :
    statusOf (active.foldl (processActive now) st) e = statusOf st e ∧
    sinceOf (active.foldl (processActive now) st) e = sinceOf st e ∧
    historyOf (active.foldl (processActive now) st) e = historyOf st e := by
  induction active generalizing st with
  | nil => exact ⟨rfl, rfl, rfl⟩
  | cons a rest ih =>
      rw [List.foldl_cons]
      have hne : e ≠ a := fun hh => h (hh ▸ List.mem_cons_self a rest)
      obtain ⟨h1, h2, h3⟩ := processActive_ne now st a e hne
      obtain ⟨g1, g2, g3⟩ :=
        ih (processActive now st a) (fun hm => h (List.mem_cons_of_mem a hm))
      exact ⟨g1.trans h1, g2.trans h2, g3.trans h3⟩

/-- The whole first loop leaves the fields of an already-green name
unchanged (a continuously running entity gets no repeated activation
timestamps). -/
theorem foldl_processActive_of_green (now : Int) (active : List String)
    (st : Store) (e : String) (h : statusOf st e = some Color.green) :
    statusOf (active.foldl (processActive now) st) e = some Color.green ∧
    sinceOf (active.foldl (processActive now) st) e = sinceOf st e ∧
    historyOf (active.foldl (processActive now) st) e = historyOf st e := by
  induction active generalizing st with
  | nil => exact ⟨h, rfl, rfl⟩
  | cons a rest ih =>
      rw [List.foldl_cons]
      by_cases hae : a = e
      · subst hae
        rw [processActive_green now st a h]
        exact ih st h
      · obtain ⟨h1, h2, h3⟩ := processActive_ne now st a e (Ne.symm hae)
        obtain ⟨g1, g2, g3⟩ := ih (processActive now st a) (h1.trans h)
        exact ⟨g1, g2.trans h2, g3.trans h3⟩

/-- The whole first loop activates a name in the snapshot that is not
currently green: status green, since `now`, `now` appended to its
history exactly once. -/
theorem foldl_processActive_activation (now : Int) (active : List String)
    (st : Store) (e : String) (hmem : e ∈ active)
    (h : statusOf st e ≠ some Color.green) :
    statusOf (active.foldl (processActive now) st) e = some Color.green ∧
    sinceOf (active.foldl (processActive now) st) e = some now ∧
    historyOf (active.foldl (processActive now) st) e =
      some ((historyOf st e).getD [] ++ [now]) := by
  induction active generalizing st with
  | nil => cases hmem
  | cons a rest ih =>
      rw [List.foldl_cons]
      by_cases hae : a = e
      · subst hae
        rw [processActive_not_green now st a h]
        obtain ⟨s1, s2, s3⟩ := activate_self now st a
        obtain ⟨g1, g2, g3⟩ := foldl_processActive_of_green now rest _ a s1
        exact ⟨g1, g2.trans s2, g3.trans s3⟩
      · have hmem2 : e ∈ rest := by
          rcases List.mem_cons.mp hmem with h' | h'
          · exact absurd h'.symm hae
          · exact h'
        obtain ⟨h1, h2, h3⟩ := processActive_ne now st a e (Ne.symm hae)
        obtain ⟨g1, g2, g3⟩ := ih (processActive now st a) hmem2 (h1.symm ▸ h)
        refine ⟨g1, g2, g3.trans ?_⟩
        rw [h3]

/-- The whole first loop preserves status-dict well-formedness. -/
theorem foldl_processActive_nodup (now : Int) (active : List String)
    (st : Store) (h : PyDict.NodupKeys st.active_block_state) :
    PyDict.NodupKeys ((active.foldl (processActive now) st).active_block_state) := by
  induction active generalizing st with
  | nil => exact h
  | cons a rest ih =>
      rw [List.foldl_cons]
      exact ih _ (processActive_nodup now st a h)

/-- The whole first loop preserves since-dict well-formedness. -/
theorem foldl_processActive_nodup_bst (now : Int) (active : List String)
    (st : Store) (h : PyDict.NodupKeys st.block_start_time) :
    PyDict.NodupKeys ((active.foldl (processActive now) st).block_start_time) := by
  induction active generalizing st with
  | nil => exact h
  | cons a rest ih =>
      rw [List.foldl_cons]
      exact ih _ (processActive_nodup_bst now st a h)

/-- A second-loop iteration is a no-op, a stop (green to red), or an
eviction of its own key. -/
theorem processInactive_cases (active : List String) (ct now : Int)
    (st : Store) (k : String) (st2 : Store)
    (h : processInactive active ct now st k = some st2) :
    st2 = st ∨
    st2 = { st with
      active_block_state := PyDict.insert st.active_block_state k Color.red
      block_start_time := PyDict.insert st.block_start_time k now } ∨
    st2 = { st with
      active_block_state := PyDict.erase st.active_block_state k
      block_start_time := PyDict.erase st.block_start_time k } := by
  unfold processInactive at h
  split at h
  · exact Or.inl (Option.some.inj h).symm
  · split at h
    · simp at h
    · exact Or.inr (Or.inl (Option.some.inj h).symm)
    · split at h
      · exact Or.inl (Option.some.inj h).symm
      · split at h
        · exact Or.inr (Or.inr (Option.some.inj h).symm)
        · exact Or.inl (Option.some.inj h).symm

/-- No second-loop iteration ever touches `script_history`. -/
theorem processInactive_history (active : List String) (ct now : Int)
    (st : Store) (k : String) (st2 : Store)
    (h : processInactive active ct now st k = some st2) :
    st2.script_history = st.script_history := by
  rcases processInactive_cases active ct now st k st2 h with rfl | rfl | rfl <;> rfl

/-- A second-loop iteration leaves every other key's status and since
unchanged. -/
theorem processInactive_ne (active : List String) (ct now : Int) (st : Store)
    (k e : String) (st2 : Store)
    (h : processInactive active ct now st k = some st2) (hne : e ≠ k) :
    statusOf st2 e = statusOf st e ∧ sinceOf st2 e = sinceOf st e := by
  rcases processInactive_cases active ct now st k st2 h with rfl | rfl | rfl
  · exact ⟨rfl, rfl⟩
  · exact ⟨PyDict.find?_insert_ne _ _ _ _ hne, PyDict.find?_insert_ne _ _ _ _ hne⟩
  · exact ⟨PyDict.find?_erase_ne _ _ _ hne, PyDict.find?_erase_ne _ _ _ hne⟩

/-- A second-loop iteration preserves status-dict well-formedness. -/
theorem processInactive_nodup (active : List String) (ct now : Int)
    (st : Store) (k : String) (st2 : Store)
    (h : processInactive active ct now st k = some st2)
    (hn : PyDict.NodupKeys st.active_block_state) :
    PyDict.NodupKeys st2.active_block_state := by
  rcases processInactive_cases active ct now st k st2 h with rfl | rfl | rfl
  · exact hn
  · exact PyDict.nodupKeys_insert _ _ _ hn
  · exact PyDict.nodupKeys_erase _ _ hn

/-- A second-loop iteration preserves since-dict well-formedness. -/
theorem processInactive_nodup_bst (active : List String) (ct now : Int)
    (st : Store) (k : String) (st2 : Store)
    (h : processInactive active ct now st k = some st2)
    (hn : PyDict.NodupKeys st.block_start_time) :
    PyDict.NodupKeys st2.block_start_time := by
  rcases processInactive_cases active ct now st k st2 h with rfl | rfl | rfl
  · exact hn
  · exact PyDict.nodupKeys_insert _ _ _ hn
  · exact PyDict.nodupKeys_erase _ _ hn

/-- A second-loop iteration on a name in the active snapshot is skipped. -/
theorem processInactive_skip (active : List String) (ct now : Int)
    (st : Store) (k : String) (hm : k ∈ active) :
    processInactive active ct now st k = some st := by
  unfold processInactive
  rw [if_pos (by simpa using hm)]

/-- A second-loop iteration on an absent green name flags it red and
records the stop time. -/
theorem processInactive_stop_step (active : List String) (ct now : Int)
    (st : Store) (k : String) (hm : k ∉ active)
    (hs : statusOf st k = some Color.green) :
    processInactive active ct now st k = some { st with
      active_block_state := PyDict.insert st.active_block_state k Color.red
      block_start_time := PyDict.insert st.block_start_time k now } := by
  unfold processInactive
  rw [if_neg (by simpa using hm),
    show PyDict.find? st.active_block_state k = some Color.green from hs]

/-- A second-loop iteration on an absent red name whose linger has expired
evicts it from status and since. -/
theorem processInactive_expire_step (active : List String) (ct now t0 : Int)
    (st : Store) (k : String) (hm : k ∉ active)
    (hs : statusOf st k = some Color.red) (ht : sinceOf st k = some t0)
    (hc : ct ≤ now - t0) :
    processInactive active ct now st k = some { st with
      active_block_state := PyDict.erase st.active_block_state k
      block_start_time := PyDict.erase st.block_start_time k } := by
  unfold processInactive
  rw [if_neg (by simpa using hm),
    show PyDict.find? st.active_block_state k = some Color.red from hs,
    show PyDict.find? st.block_start_time k = some t0 from ht]
  simp [hc]

/-- A second-loop iteration on an absent red name whose linger has not yet
expired leaves the store unchanged. -/
theorem processInactive_stay_step (active : List String) (ct now t0 : Int)
    (st : Store) (k : String) (hm : k ∉ active)
    (hs : statusOf st k = some Color.red) (ht : sinceOf st k = some t0)
    (hc : ¬ ct ≤ now - t0) :
    processInactive active ct now st k = some st := by
  unfold processInactive
  rw [if_neg (by simpa using hm),
    show PyDict.find? st.active_block_state k = some Color.red from hs,
    show PyDict.find? st.block_start_time k = some t0 from ht]
  simp [hc]

/-- A second-loop iteration succeeds whenever its key is active or still
present: the only `KeyError` site is an absent key. -/
theorem processInactive_isSome (active : List String) (ct now : Int)
    (st : Store) (k : String)
    (h : k ∈ active ∨ statusOf st k ≠ none) :
    ∃ st2, processInactive active ct now st k = some st2 := by
  by_cases hm : k ∈ active
  · exact ⟨st, processInactive_skip active ct now st k hm⟩
  · have hs : statusOf st k ≠ none := h.resolve_left hm
    unfold processInactive
    rw [if_neg (by simpa using hm)]
    cases hf : PyDict.find? st.active_block_state k with
    | none => exact absurd hf hs
    | some c =>
        cases c with
        | green => exact ⟨_, rfl⟩
        | red =>
            cases hb : PyDict.find? st.block_start_time k with
            | none => exact ⟨st, rfl⟩
            | some t =>
                by_cases hc : ct ≤ now - t
                · exact ⟨{ st with
                    active_block_state := PyDict.erase st.active_block_state k
                    block_start_time := PyDict.erase st.block_start_time k },
                    by simp [hc]⟩
                · exact ⟨st, by simp [hc]⟩

/-- A second-loop iteration preserves the status-since key-set
invariant. -/
theorem processInactive_inv (active : List String) (ct now : Int)
    (st : Store) (k : String) (st2 : Store)
    (h : processInactive active ct now st k = some st2)
    (hn : PyDict.NodupKeys st.active_block_state)
    (hinv : SinceInvariant st) : SinceInvariant st2 := by
  rcases processInactive_cases active ct now st k st2 h with rfl | rfl | rfl
  · exact hinv
  · intro n hs
    by_cases hne : n = k
    · subst hne
      simp [sinceOf, PyDict.find?_insert_self]
    · rw [show sinceOf { st with
          active_block_state := PyDict.insert st.active_block_state k Color.red
          block_start_time := PyDict.insert st.block_start_time k now } n =
          sinceOf st n from PyDict.find?_insert_ne _ _ _ _ hne]
      exact hinv n (by rwa [show statusOf { st with
        active_block_state := PyDict.insert st.active_block_state k Color.red
        block_start_time := PyDict.insert st.block_start_time k now } n =
        statusOf st n from PyDict.find?_insert_ne _ _ _ _ hne] at hs)
  · intro n hs
    by_cases hne : n = k
    · subst hne
      exact absurd (PyDict.find?_erase_self _ _ hn) hs
    · rw [show sinceOf { st with
          active_block_state := PyDict.erase st.active_block_state k
          block_start_time := PyDict.erase st.block_start_time k } n =
          sinceOf st n from PyDict.find?_erase_ne _ _ _ hne]
      exact hinv n (by rwa [show statusOf { st with
        active_block_state := PyDict.erase st.active_block_state k
        block_start_time := PyDict.erase st.block_start_time k } n =
        statusOf st n from PyDict.find?_erase_ne _ _ _ hne] at hs)

/-- A second-loop iteration on an absent red name with no recorded stop
time does nothing (`if stopped_at` guards the eviction). -/
theorem processInactive_red_nosince_step (active : List String) (ct now : Int)
    (st : Store) (k : String) (hm : k ∉ active)
    (hs : statusOf st k = some Color.red) (ht : sinceOf st k = none) :
    processInactive active ct now st k = some st := by
  unfold processInactive
  rw [if_neg (by simpa using hm),
    show PyDict.find? st.active_block_state k = some Color.red from hs,
    show PyDict.find? st.block_start_time k = none from ht]

/-- A second-loop iteration on an absent, already-removed name raises
`KeyError` (the only failure point of the reconciler). -/
theorem processInactive_absent_none (active : List String) (ct now : Int)
    (st : Store) (k : String) (hm : k ∉ active)
    (hs : statusOf st k = none) :
    processInactive active ct now st k = none := by
  unfold processInactive
  rw [if_neg (by simpa using hm),
    show PyDict.find? st.active_block_state k = none from hs]

/-- Splitting a successful monadic fold over a cons cell. -/
theorem foldlM_cons_some {α β : Type} (f : β → α → Option β) (a : α)
    (l : List α) (st st' : β) (h : (a :: l).foldlM f st = some st') :
    ∃ s1, f st a = some s1 ∧ l.foldlM f s1 = some st' := by
  rw [List.foldlM_cons] at h
  cases hf : f st a with
  | none => rw [hf] at h; simp at h
  | some s1 =>
      rw [hf] at h
      exact ⟨s1, rfl, by simpa using h⟩

/-- A successful monadic fold over the empty list returns its input. -/
theorem foldlM_nil_some {α β : Type} (f : β → α → Option β) (st st' : β)
    (h : ([] : List α).foldlM f st = some st') : st = st' := by
  simpa using h

/-- Rebuilding a successful monadic fold from a head step and a tail
fold. -/
theorem foldlM_cons_of_step {α β : Type} (f : β → α → Option β) (a : α)
    (l : List α) (st s1 st' : β) (hf : f st a = some s1)
    (hl : l.foldlM f s1 = some st') : (a :: l).foldlM f st = some st' := by
  rw [List.foldlM_cons, hf]
  simpa using hl

/-- The whole second loop never touches `script_history`. -/
theorem foldlM_processInactive_history (active : List String) (ct now : Int)
    (l : List String) (st st' : Store)
    (h : l.foldlM (processInactive active ct now) st = some st') :
    st'.script_history = st.script_history := by
  induction l generalizing st with
  | nil => obtain rfl := foldlM_nil_some _ _ _ h; rfl
  | cons a rest ih =>
      obtain ⟨s1, hf, hrest⟩ := foldlM_cons_some _ _ _ _ _ h
      rw [ih s1 hrest]
      exact processInactive_history active ct now st a s1 hf

/-- The whole second loop leaves the status and since of a name outside the
processed key list unchanged. -/
theorem foldlM_processInactive_not_mem (active : List String) (ct now : Int)
    (l : List String) (st st' : Store) (e : String)
    (h : l.foldlM (processInactive active ct now) st = some st')
    (hmem : e ∉ l) :
    statusOf st' e = statusOf st e ∧ sinceOf st' e = sinceOf st e := by
  induction l generalizing st with
  | nil => obtain rfl := foldlM_nil_some _ _ _ h; exact ⟨rfl, rfl⟩
  | cons a rest ih =>
      obtain ⟨s1, hf, hrest⟩ := foldlM_cons_some _ _ _ _ _ h
      have hne : e ≠ a := fun hh => hmem (hh ▸ List.mem_cons_self a rest)
      obtain ⟨p1, p2⟩ := processInactive_ne active ct now st a e s1 hf hne
      obtain ⟨q1, q2⟩ := ih s1 hrest (fun hm => hmem (List.mem_cons_of_mem a hm))
      exact ⟨q1.trans p1, q2.trans p2⟩

/-- The whole second loop leaves the status and since of a name in the
active snapshot unchanged (such names are skipped). -/
theorem foldlM_processInactive_mem_active (active : List String) (ct now : Int)
    (l : List String) (st st' : Store) (e : String)
    (h : l.foldlM (processInactive active ct now) st = some st')
    (hmem : e ∈ active) :
    statusOf st' e = statusOf st e ∧ sinceOf st' e = sinceOf st e := by
  induction l generalizing st with
  | nil => obtain rfl := foldlM_nil_some _ _ _ h; exact ⟨rfl, rfl⟩
  | cons a rest ih =>
      obtain ⟨s1, hf, hrest⟩ := foldlM_cons_some _ _ _ _ _ h
      by_cases hae : e = a
      · subst hae
        rw [processInactive_skip active ct now st e hmem] at hf
        obtain rfl := Option.some.inj hf
        exact ih st hrest
      · obtain ⟨p1, p2⟩ := processInactive_ne active ct now st a e s1 hf hae
        obtain ⟨q1, q2⟩ := ih s1 hrest
        exact ⟨q1.trans p1, q2.trans p2⟩

/-- The whole second loop succeeds when its key list has no duplicates and
every listed key is active or still present at the start. -/
theorem foldlM_processInactive_isSome (active : List String) (ct now : Int)
    (l : List String) (st : Store) (hnd : l.Nodup)
    (hall : ∀ k ∈ l, k ∈ active ∨ statusOf st k ≠ none) :
    ∃ st', l.foldlM (processInactive active ct now) st = some st' := by
  induction l generalizing st with
  | nil => exact ⟨st, rfl⟩
  | cons a rest ih =>
      obtain ⟨s1, hf⟩ := processInactive_isSome active ct now st a
        (hall a (List.mem_cons_self a rest))
      have hrest : ∀ k ∈ rest, k ∈ active ∨ statusOf s1 k ≠ none := by
        intro k hk
        rcases hall k (List.mem_cons_of_mem a hk) with hka | hks
        · exact Or.inl hka
        · have hne : k ≠ a := fun hh => (List.nodup_cons.mp hnd).1 (hh ▸ hk)
          rw [← (processInactive_ne active ct now st a k s1 hf hne).1] at hks
          exact Or.inr hks
      obtain ⟨st', hst'⟩ := ih s1 (List.nodup_cons.mp hnd).2 hrest
      exact ⟨st', foldlM_cons_of_step _ _ _ _ _ _ hf hst'⟩

/-- Through the whole second loop, an absent green name ends red with
stop time `now`. -/
theorem foldlM_processInactive_stop (active : List String) (ct now : Int)
    (l : List String) (st st' : Store) (e : String)
    (h : l.foldlM (processInactive active ct now) st = some st')
    (hnd : l.Nodup) (hmem : e ∈ l) (hact : e ∉ active)
    (hs : statusOf st e = some Color.green) :
    statusOf st' e = some Color.red ∧ sinceOf st' e = some now := by
  induction l generalizing st with
  | nil => cases hmem
  | cons a rest ih =>
      obtain ⟨s1, hf, hrest⟩ := foldlM_cons_some _ _ _ _ _ h
      by_cases hae : a = e
      · subst hae
        rw [processInactive_stop_step active ct now st a hact hs] at hf
        obtain rfl := Option.some.inj hf
        obtain ⟨q1, q2⟩ := foldlM_processInactive_not_mem active ct now rest
          _ st' a hrest (List.nodup_cons.mp hnd).1
        exact ⟨q1.trans (PyDict.find?_insert_self _ _ _),
          q2.trans (PyDict.find?_insert_self _ _ _)⟩
      · have hmem2 : e ∈ rest := by
          rcases List.mem_cons.mp hmem with h' | h'
          · exact absurd h'.symm hae
          · exact h'
        obtain ⟨p1, p2⟩ := processInactive_ne active ct now st a e s1 hf
          (fun hh => hae hh.symm)
        exact ih s1 hrest (List.nodup_cons.mp hnd).2 hmem2 (p1.trans hs)

/-- Through the whole second loop, an absent red name whose linger has
expired is removed from status and since. -/
theorem foldlM_processInactive_expire (active : List String) (ct now t0 : Int)
    (l : List String) (st st' : Store) (e : String)
    (h : l.foldlM (processInactive active ct now) st = some st')
    (hnd : l.Nodup) (hnda : PyDict.NodupKeys st.active_block_state)
    (hndb : PyDict.NodupKeys st.block_start_time)
    (hmem : e ∈ l) (hact : e ∉ active)
    (hs : statusOf st e = some Color.red) (ht : sinceOf st e = some t0)
    (hc : ct ≤ now - t0) :
    statusOf st' e = none ∧ sinceOf st' e = none := by
  induction l generalizing st with
  | nil => cases hmem
  | cons a rest ih =>
      obtain ⟨s1, hf, hrest⟩ := foldlM_cons_some _ _ _ _ _ h
      by_cases hae : a = e
      · subst hae
        rw [processInactive_expire_step active ct now t0 st a hact hs ht hc] at hf
        obtain rfl := Option.some.inj hf
        obtain ⟨q1, q2⟩ := foldlM_processInactive_not_mem active ct now rest
          _ st' a hrest (List.nodup_cons.mp hnd).1
        exact ⟨q1.trans (PyDict.find?_erase_self _ _ hnda),
          q2.trans (PyDict.find?_erase_self _ _ hndb)⟩
      · have hmem2 : e ∈ rest := by
          rcases List.mem_cons.mp hmem with h' | h'
          · exact absurd h'.symm hae
          · exact h'
        obtain ⟨p1, p2⟩ := processInactive_ne active ct now st a e s1 hf
          (fun hh => hae hh.symm)
        exact ih s1 hrest (List.nodup_cons.mp hnd).2
          (processInactive_nodup active ct now st a s1 hf hnda)
          (processInactive_nodup_bst active ct now st a s1 hf hndb)
          hmem2 (p1.trans hs) (p2.trans ht)

/-- Through the whole second loop, an absent red name whose linger has not
expired keeps its status and stop time. -/
theorem foldlM_processInactive_stay (active : List String) (ct now t0 : Int)
    (l : List String) (st st' : Store) (e : String)
    (h : l.foldlM (processInactive active ct now) st = some st')
    (hnd : l.Nodup) (hmem : e ∈ l) (hact : e ∉ active)
    (hs : statusOf st e = some Color.red) (ht : sinceOf st e = some t0)
    (hc : ¬ ct ≤ now - t0) :
    statusOf st' e = some Color.red ∧ sinceOf st' e = some t0 := by
  induction l generalizing st with
  | nil => cases hmem
  | cons a rest ih =>
      obtain ⟨s1, hf, hrest⟩ := foldlM_cons_some _ _ _ _ _ h
      by_cases hae : a = e
      · subst hae
        rw [processInactive_stay_step active ct now t0 st a hact hs ht hc] at hf
        obtain rfl := Option.some.inj hf
        obtain ⟨q1, q2⟩ := foldlM_processInactive_not_mem active ct now rest
          _ st' a hrest (List.nodup_cons.mp hnd).1
        exact ⟨q1.trans hs, q2.trans ht⟩
      · have hmem2 : e ∈ rest := by
          rcases List.mem_cons.mp hmem with h' | h'
          · exact absurd h'.symm hae
          · exact h'
        obtain ⟨p1, p2⟩ := processInactive_ne active ct now st a e s1 hf
          (fun hh => hae hh.symm)
        exact ih s1 hrest (List.nodup_cons.mp hnd).2 hmem2
          (p1.trans hs) (p2.trans ht)

/-- After the whole second loop, any green name is either in the active
snapshot or was green before and never processed. -/
theorem foldlM_processInactive_green (active : List String) (ct now : Int)
    (l : List String) (st st' : Store) (e : String)
    (hnda : PyDict.NodupKeys st.active_block_state)
    (h : l.foldlM (processInactive active ct now) st = some st')
    (hg : statusOf st' e = some Color.green) :
    e ∈ active ∨ (statusOf st e = some Color.green ∧ e ∉ l) := by
  induction l generalizing st with
  | nil => obtain rfl := foldlM_nil_some _ _ _ h; exact Or.inr ⟨hg, by simp⟩
  | cons a rest ih =>
      obtain ⟨s1, hf, hrest⟩ := foldlM_cons_some _ _ _ _ _ h
      rcases ih s1 (processInactive_nodup active ct now st a s1 hf hnda) hrest
        with hcase | ⟨hg1, hnm⟩
      · exact Or.inl hcase
      · by_cases hae : e = a
        · subst hae
          by_cases hma : e ∈ active
          · exact Or.inl hma
          · exfalso
            cases hsc : statusOf st e with
            | none =>
                rw [processInactive_absent_none active ct now st e hma hsc] at hf
                simp at hf
            | some c =>
                cases c with
                | green =>
                    rw [processInactive_stop_step active ct now st e hma hsc] at hf
                    obtain rfl := Option.some.inj hf
                    simp [statusOf, PyDict.find?_insert_self] at hg1
                | red =>
                    cases htc : sinceOf st e with
                    | none =>
                        rw [processInactive_red_nosince_step active ct now st e
                          hma hsc htc] at hf
                        obtain rfl := Option.some.inj hf
                        rw [hsc] at hg1
                        simp at hg1
                    | some t =>
                        by_cases hcc : ct ≤ now - t
                        · rw [processInactive_expire_step active ct now t st e
                            hma hsc htc hcc] at hf
                          obtain rfl := Option.some.inj hf
                          simp [statusOf,
                            PyDict.find?_erase_self st.active_block_state e hnda] at hg1
                        · rw [processInactive_stay_step active ct now t st e
                            hma hsc htc hcc] at hf
                          obtain rfl := Option.some.inj hf
                          rw [hsc] at hg1
                          simp at hg1
        · refine Or.inr ⟨?_, ?_⟩
          · rw [← (processInactive_ne active ct now st a e s1 hf hae).1]
            exact hg1
          · intro hmem
            rcases List.mem_cons.mp hmem with h' | h'
            · exact hae h'
            · exact hnm h'

/-- The whole second loop preserves the status-since key-set invariant. -/
theorem foldlM_processInactive_inv (active : List String) (ct now : Int)
    (l : List String) (st st' : Store)
    (h : l.foldlM (processInactive active ct now) st = some st')
    (hnda : PyDict.NodupKeys st.active_block_state)
    (hinv : SinceInvariant st) : SinceInvariant st' := by
  induction l generalizing st with
  | nil => obtain rfl := foldlM_nil_some _ _ _ h; exact hinv
  | cons a rest ih =>
      obtain ⟨s1, hf, hrest⟩ := foldlM_cons_some _ _ _ _ _ h
      exact ih s1 hrest (processInactive_nodup active ct now st a s1 hf hnda)
        (processInactive_inv active ct now st a s1 hf hnda hinv)

/-- `activate` preserves the status-since key-set invariant. -/
theorem activate_inv (now : Int) (st : Store) (k : String)
    (hinv : SinceInvariant st) : SinceInvariant (activate now st k) := by
  intro n hs
  by_cases hne : n = k
  · subst hne
    rw [(activate_self now st n).2.1]
    simp
  · rw [(activate_ne now st k n hne).2.1]
    exact hinv n (by rwa [(activate_ne now st k n hne).1] at hs)

/-- A first-loop iteration preserves the status-since key-set invariant. -/
theorem processActive_inv (now : Int) (st : Store) (k : String)
    (hinv : SinceInvariant st) : SinceInvariant (processActive now st k) := by
  unfold processActive
  cases PyDict.find? st.active_block_state k with
  | none => exact activate_inv now st k hinv
  | some c =>
      by_cases hc : c = Color.green
      · simpa [hc] using hinv
      · simpa [hc] using activate_inv now st k hinv

/-- The whole first loop preserves the status-since key-set invariant. -/
theorem foldl_processActive_inv (now : Int) (active : List String)
    (st : Store) (hinv : SinceInvariant st) :
    SinceInvariant (active.foldl (processActive now) st) := by
  induction active generalizing st with
  | nil => exact hinv
  | cons a rest ih =>
      rw [List.foldl_cons]
      exact ih _ (processActive_inv now st a hinv)

/-- Through the whole first loop, a recorded history either stays as it is
or gains the single timestamp `now` (in which case the name ends green, so
no further timestamp is appended). -/
theorem foldl_processActive_history (now : Int) (active : List String)
    (st : Store) (e : String) (h : List Int)
    (hh : historyOf st e = some h ∨
      (historyOf st e = some (h ++ [now]) ∧ statusOf st e = some Color.green)) :
    historyOf (active.foldl (processActive now) st) e = some h ∨
      (historyOf (active.foldl (processActive now) st) e = some (h ++ [now]) ∧
        statusOf (active.foldl (processActive now) st) e = some Color.green) := by
  induction active generalizing st with
  | nil => exact hh
  | cons a rest ih =>
      rw [List.foldl_cons]
      apply ih
      by_cases hae : a = e
      · subst hae
        by_cases hg : statusOf st a = some Color.green
        · rw [processActive_green now st a hg]
          exact hh
        · rw [processActive_not_green now st a hg]
          rcases hh with hh | ⟨hh2, hg2⟩
          · right
            refine ⟨?_, (activate_self now st a).1⟩
            rw [(activate_self now st a).2.2, hh]
            rfl
          · exact absurd hg2 hg
      · have hne : e ≠ a := fun hx => hae hx.symm
        obtain ⟨p1, _, p3⟩ := processActive_ne now st a e hne
        rcases hh with hh | ⟨hh2, hg2⟩
        · exact Or.inl (p3.trans hh)
        · exact Or.inr ⟨p3.trans hh2, p1.trans hg2⟩

/-- Removing the first stopped entry yields a sublist. -/
theorem evictFirstStopped_sublist (abs : List (String × Color)) :
    (evictFirstStopped abs).Sublist abs := by
  induction abs with
  | nil => simp [evictFirstStopped]
  | cons p rest ih =>
      obtain ⟨k, v⟩ := p
      by_cases hv : v = Color.red
      · simp [evictFirstStopped, hv]
      · simpa [evictFirstStopped, hv] using ih.cons₂ (k, v)

/-- Well-formedness restricts to sublists of a dict. -/
theorem nodupKeys_of_sublist {α : Type} (d1 d2 : List (String × α))
    (hs : d1.Sublist d2) (h : PyDict.NodupKeys d2) : PyDict.NodupKeys d1 :=
  h.sublist (hs.map Prod.fst)

/-- Removing the first stopped entry shortens a list that has one. -/
theorem evictFirstStopped_length_lt (abs : List (String × Color))
    (hmem : ∃ p ∈ abs, p.2 = Color.red) :
    (evictFirstStopped abs).length < abs.length := by
  induction abs with
  | nil => simp at hmem
  | cons hd tl ih =>
      by_cases hr : hd.2 = Color.red
      · simp [evictFirstStopped, hr]
      · obtain ⟨p, hp, hpr⟩ := hmem
        rcases List.mem_cons.mp hp with rfl | hp2
        · exact absurd hpr hr
        · obtain ⟨k, v⟩ := hd
          simp only [evictFirstStopped] at *
          simp only [hr, if_neg] at *
          simpa [hr] using Nat.succ_lt_succ (ih ⟨p, hp2, hpr⟩)

/-- In a well-formed status dict whose first red entry is `(k, v)`,
deleting key `k` is exactly the spec's "evict the oldest STOPPED entry",
and its red entries shrink by that head. -/
theorem filter_red_head (abs : List (String × Color)) (k : String) (v : Color)
    (tail : List (String × Color)) (hnd : PyDict.NodupKeys abs)
    (hf : abs.filter (fun p => p.2 == Color.red) = (k, v) :: tail) :
    PyDict.erase abs k = evictFirstStopped abs ∧
    (evictFirstStopped abs).filter (fun p => p.2 == Color.red) = tail := by
  induction abs with
  | nil => simp at hf
  | cons p rest ih =>
      obtain ⟨a, c⟩ := p
      by_cases hc : c = Color.red
      · rw [List.filter_cons_of_pos (by simp [hc])] at hf
        injection hf with hf1 hf2
        injection hf1 with hfa hfc
        subst hfa
        constructor
        · simp [PyDict.erase, evictFirstStopped, hc]
        · simp [evictFirstStopped, hc, hf2]
      · rw [List.filter_cons_of_neg (by simp [hc])] at hf
        have hk_rest : k ∈ PyDict.keys rest := by
          have hmem : (k, v) ∈ rest :=
            List.mem_of_mem_filter (hf ▸ List.mem_cons_self (k, v) tail)
          exact List.mem_map_of_mem Prod.fst hmem
        have hka : a ≠ k := by
          intro hx
          subst hx
          unfold PyDict.NodupKeys at hnd
          rw [PyDict.keys_cons] at hnd
          exact (List.nodup_cons.mp hnd).1 hk_rest
        have hnd_rest : PyDict.NodupKeys rest := by
          unfold PyDict.NodupKeys at hnd ⊢
          rw [PyDict.keys_cons] at hnd
          exact (List.nodup_cons.mp hnd).2
        obtain ⟨ih1, ih2⟩ := ih hnd_rest hf
        constructor
        · simp [PyDict.erase, evictFirstStopped, hka, hc, ih1]
        · simp [evictFirstStopped, hc, ih2]

/-- The first eviction pass does nothing when already within capacity. -/
theorem rolloverPass1_le (maxBlocks : Int) (rk : List String)
    (abs : List (String × Color)) (bst : List (String × Int))
    (hlen : (abs.length : Int) ≤ maxBlocks) :
    rolloverPass1 maxBlocks rk abs bst = (abs, bst) := by
  cases rk with
  | nil => rfl
  | cons key rest => simp [rolloverPass1, hlen]

/-- The first pass of `rollover_blocks`, run on the red keys of a
well-formed status dict, computes exactly the spec's phase 1 (evict
STOPPED entries oldest-first until capacity or no STOPPED left). -/
theorem rolloverPass1_spec (maxBlocks : Int) (hm : 0 ≤ maxBlocks) :
    ∀ (n : Nat) (abs : List (String × Color)) (bst : List (String × Int)),
      abs.length ≤ n → PyDict.NodupKeys abs →
      (rolloverPass1 maxBlocks
        (PyDict.keys (abs.filter (fun p => p.2 == Color.red))) abs bst).1 =
        specPhase1 maxBlocks.toNat abs := by
  intro n
  induction n with
  | zero =>
      intro abs bst hlen hnd
      have habs : abs = [] := List.length_eq_zero.mp (Nat.le_zero.mp hlen)
      subst habs
      rw [specPhase1]
      simp [rolloverPass1, PyDict.keys]
  | succ n ih =>
      intro abs bst hlen hnd
      by_cases hcap : (abs.length : Int) ≤ maxBlocks
      · rw [rolloverPass1_le maxBlocks _ abs bst hcap, specPhase1,
          dif_neg (by
            rintro ⟨h1, _⟩
            omega)]
      · cases hfil : abs.filter (fun p => p.2 == Color.red) with
        | nil =>
            have hany : abs.any (fun p => p.2 == Color.red) = false := by
              rw [List.any_eq_false]
              intro p hp
              by_contra hpr
              have hpr2 : (fun p => p.2 == Color.red) p = true := by
                simpa using hpr
              have : p ∈ abs.filter (fun p => p.2 == Color.red) :=
                List.mem_filter.mpr ⟨hp, hpr2⟩
              simp [hfil] at this
            rw [specPhase1, dif_neg (by
              rintro ⟨_, h2⟩
              rw [hany] at h2
              cases h2)]
            simp [PyDict.keys, rolloverPass1]
        | cons kv tail =>
            obtain ⟨k, v⟩ := kv
            obtain ⟨heq, hfil2⟩ := filter_red_head abs k v tail hnd hfil
            have hmem : ∃ p ∈ abs, p.2 = Color.red := by
              refine ⟨(k, v), List.mem_of_mem_filter
                (hfil ▸ List.mem_cons_self (k, v) tail), ?_⟩
              have := List.of_mem_filter (hfil ▸ List.mem_cons_self (k, v) tail)
              simpa using this
            have hany : abs.any (fun p => p.2 == Color.red) = true := by
              obtain ⟨p, hp, hpr⟩ := hmem
              exact List.any_eq_true.mpr ⟨p, hp, by simpa using hpr⟩
            have hlt := evictFirstStopped_length_lt abs hmem
            have hnd2 : PyDict.NodupKeys (evictFirstStopped abs) :=
              nodupKeys_of_sublist _ _ (evictFirstStopped_sublist abs) hnd
            rw [specPhase1, dif_pos ⟨by omega, hany⟩]
            rw [PyDict.keys_cons]
            rw [show rolloverPass1 maxBlocks (k :: PyDict.keys tail) abs bst =
              rolloverPass1 maxBlocks (PyDict.keys tail)
                (PyDict.erase abs k) (PyDict.erase bst k) by
              simp [rolloverPass1, hcap]]
            rw [heq, ← hfil2]
            exact ih (evictFirstStopped abs) (PyDict.erase bst k)
              (by omega) hnd2

/-- The second eviction pass does nothing when already within capacity. -/
theorem rolloverPass2_noop (maxBlocks : Int) (abs : List (String × Color))
    (bst : List (String × Int)) (hm : 0 ≤ maxBlocks)
    (hlen : (abs.length : Int) ≤ maxBlocks) :
    rolloverPass2 maxBlocks abs bst = some (abs, bst) := by
  cases abs with
  | nil => simp [rolloverPass2, hm]
  | cons p rest =>
      obtain ⟨k, v⟩ := p
      simp only [rolloverPass2]
      rw [if_pos hlen]

/-- With a non-negative capacity the second eviction pass always succeeds
and lands at or below capacity. -/
theorem rolloverPass2_some (maxBlocks : Int) (hm : 0 ≤ maxBlocks) :
    ∀ (abs : List (String × Color)) (bst : List (String × Int)),
      ∃ abs2 bst2, rolloverPass2 maxBlocks abs bst = some (abs2, bst2) ∧
        (abs2.length : Int) ≤ maxBlocks := by
  intro abs
  induction abs with
  | nil =>
      intro bst
      exact ⟨[], bst, by simp [rolloverPass2, hm], by simpa using hm⟩
  | cons p rest ih =>
      intro bst
      obtain ⟨k, v⟩ := p
      by_cases hlen : (((k, v) :: rest).length : Int) ≤ maxBlocks
      · exact ⟨(k, v) :: rest, bst,
          by simp only [rolloverPass2]; rw [if_pos hlen], hlen⟩
      · obtain ⟨a2, b2, h1, h2⟩ := ih (PyDict.erase bst k)
        exact ⟨a2, b2,
          by simp only [rolloverPass2]; rw [if_neg hlen]; exact h1, h2⟩

/-- The second pass of `rollover_blocks` computes exactly the spec's
phase 2 (evict oldest-first while above capacity). -/
theorem rolloverPass2_spec (maxBlocks : Int) (hm : 0 ≤ maxBlocks) :
    ∀ (abs : List (String × Color)) (bst : List (String × Int)),
      ∃ bst2, rolloverPass2 maxBlocks abs bst =
        some (specPhase2 maxBlocks.toNat abs, bst2) := by
  intro abs
  induction abs with
  | nil =>
      intro bst
      exact ⟨bst, by simp [rolloverPass2, specPhase2, hm]⟩
  | cons p rest ih =>
      intro bst
      obtain ⟨k, v⟩ := p
      by_cases hlen : (((k, v) :: rest).length : Int) ≤ maxBlocks
      · have hlen2 : ((k, v) :: rest).length ≤ maxBlocks.toNat := by omega
        exact ⟨bst, by
          simp only [rolloverPass2, specPhase2]
          rw [if_pos hlen, if_pos hlen2]⟩
      · have hlen2 : ¬ ((k, v) :: rest).length ≤ maxBlocks.toNat := by omega
        obtain ⟨b2, h1⟩ := ih (PyDict.erase bst k)
        exact ⟨b2, by
          simp only [rolloverPass2, specPhase2]
          rw [if_neg hlen, if_neg hlen2]
          exact h1⟩

/-- The tail of a well-formed dict is well-formed. -/
theorem PyDict.nodupKeys_tail {α : Type} (k : String) (v : α)
    (tl : List (String × α)) (h : PyDict.NodupKeys ((k, v) :: tl)) :
    PyDict.NodupKeys tl := by
  unfold PyDict.NodupKeys at h ⊢
  rw [PyDict.keys_cons] at h
  exact (List.nodup_cons.mp h).2

/-- Evaluating `rollover_blocks` from the two passes' results. -/
theorem rollover_blocks_eq_of_passes (maxBlocks : Int) (st : Store)
    (abs : List (String × Color)) (bst : List (String × Int))
    (abs2 : List (String × Color)) (bst2 : List (String × Int))
    (hp1 : (if (st.active_block_state.length : Int) > maxBlocks then
        rolloverPass1 maxBlocks
          (PyDict.keys (st.active_block_state.filter (fun p => p.2 == Color.red)))
          st.active_block_state st.block_start_time
      else (st.active_block_state, st.block_start_time)) = (abs, bst))
    (hp2 : rolloverPass2 maxBlocks abs bst = some (abs2, bst2)) :
    rollover_blocks maxBlocks st =
      some { active_block_state := abs2, block_start_time := bst2
             script_history := st.script_history } := by
  unfold rollover_blocks
  rw [hp1]
  simp only [hp2]

/-- The first eviction pass keeps status keys well-formed and preserves the
status-since key-set inclusion. -/
theorem rolloverPass1_inv (maxBlocks : Int) :
    ∀ (rk : List String) (abs : List (String × Color)) (bst : List (String × Int)),
      PyDict.NodupKeys abs →
      (∀ n, PyDict.find? abs n ≠ none → PyDict.find? bst n ≠ none) →
      PyDict.NodupKeys (rolloverPass1 maxBlocks rk abs bst).1 ∧
      ∀ n, PyDict.find? (rolloverPass1 maxBlocks rk abs bst).1 n ≠ none →
        PyDict.find? (rolloverPass1 maxBlocks rk abs bst).2 n ≠ none := by
  intro rk
  induction rk with
  | nil =>
      intro abs bst hnd hinv
      exact ⟨hnd, hinv⟩
  | cons key rest ih =>
      intro abs bst hnd hinv
      by_cases hlen : (abs.length : Int) ≤ maxBlocks
      · rw [rolloverPass1_le _ _ _ _ hlen]
        exact ⟨hnd, hinv⟩
      · have hstep : rolloverPass1 maxBlocks (key :: rest) abs bst =
            rolloverPass1 maxBlocks rest (PyDict.erase abs key)
              (PyDict.erase bst key) := by
          simp [rolloverPass1, hlen]
        rw [hstep]
        apply ih
        · exact PyDict.nodupKeys_erase _ _ hnd
        · intro n hn
          by_cases hne : n = key
          · subst hne
            exact absurd (PyDict.find?_erase_self _ _ hnd) hn
          · rw [PyDict.find?_erase_ne _ _ _ hne]
            rw [PyDict.find?_erase_ne _ _ _ hne] at hn
            exact hinv n hn

/-- The second eviction pass preserves the status-since key-set
inclusion. -/
theorem rolloverPass2_inv (maxBlocks : Int) :
    ∀ (abs : List (String × Color)) (bst : List (String × Int))
      (abs2 : List (String × Color)) (bst2 : List (String × Int)),
      PyDict.NodupKeys abs →
      (∀ n, PyDict.find? abs n ≠ none → PyDict.find? bst n ≠ none) →
      rolloverPass2 maxBlocks abs bst = some (abs2, bst2) →
      ∀ n, PyDict.find? abs2 n ≠ none → PyDict.find? bst2 n ≠ none := by
  intro abs
  induction abs with
  | nil =>
      intro bst abs2 bst2 hnd hinv h n hn
      unfold rolloverPass2 at h
      split at h
      · have h2 := Option.some.inj h
        rw [Prod.mk.injEq] at h2
        obtain ⟨rfl, rfl⟩ := h2
        simp [PyDict.find?] at hn
      · simp at h
  | cons p rest ih =>
      intro bst abs2 bst2 hnd hinv h n hn
      obtain ⟨k, v⟩ := p
      simp only [rolloverPass2] at h
      by_cases hlen : (((k, v) :: rest).length : Int) ≤ maxBlocks
      · rw [if_pos hlen] at h
        have h2 := Option.some.inj h
        rw [Prod.mk.injEq] at h2
        obtain ⟨rfl, rfl⟩ := h2
        exact hinv n hn
      · rw [if_neg hlen] at h
        refine ih (PyDict.erase bst k) abs2 bst2
          (PyDict.nodupKeys_tail k v rest hnd) ?_ h n hn
        intro m hm
        have hmk : m ≠ k := by
          intro he
          subst he
          exact hm (PyDict.find?_tail_of_nodup m v rest hnd)
        rw [PyDict.find?_erase_ne _ _ _ hmk]
        refine hinv m ?_
        simpa [PyDict.find?, Ne.symm hmk] using hm

/-- `rollover_blocks` with a non-negative capacity always succeeds, lands
at or below capacity, and never touches `script_history`. -/
theorem rollover_blocks_some (maxBlocks : Int) (st : Store) (hm : 0 ≤ maxBlocks) :
    ∃ st', rollover_blocks maxBlocks st = some st' ∧
      (st'.active_block_state.length : Int) ≤ maxBlocks ∧
      st'.script_history = st.script_history := by
  by_cases hcap : (st.active_block_state.length : Int) > maxBlocks
  · obtain ⟨abs2, bst2, h1, h2⟩ := rolloverPass2_some maxBlocks hm
      (rolloverPass1 maxBlocks
        (PyDict.keys (st.active_block_state.filter (fun p => p.2 == Color.red)))
        st.active_block_state st.block_start_time).1
      (rolloverPass1 maxBlocks
        (PyDict.keys (st.active_block_state.filter (fun p => p.2 == Color.red)))
        st.active_block_state st.block_start_time).2
    exact ⟨_, rollover_blocks_eq_of_passes maxBlocks st _ _ abs2 bst2
      (by rw [if_pos hcap]) h1, h2, rfl⟩
  · obtain ⟨abs2, bst2, h1, h2⟩ := rolloverPass2_some maxBlocks hm
      st.active_block_state st.block_start_time
    exact ⟨_, rollover_blocks_eq_of_passes maxBlocks st _ _ abs2 bst2
      (by rw [if_neg hcap]) h1, h2, rfl⟩

/-- `rollover_blocks` is a no-op on a store within capacity. -/
theorem rollover_blocks_noop (maxBlocks : Int) (st : Store) (hm : 0 ≤ maxBlocks)
    (hlen : (st.active_block_state.length : Int) ≤ maxBlocks) :
    rollover_blocks maxBlocks st = some st := by
  have h := rollover_blocks_eq_of_passes maxBlocks st
    st.active_block_state st.block_start_time
    st.active_block_state st.block_start_time
    (by rw [if_neg (by omega)])
    (rolloverPass2_noop maxBlocks _ _ hm hlen)
  rw [h]

/-- `rollover_blocks` computes the spec's two-pass eviction on the status
dict of a well-formed store. -/
theorem rollover_blocks_spec (maxBlocks : Int) (st : Store) (hm : 0 ≤ maxBlocks)
    (hnd : PyDict.NodupKeys st.active_block_state) :
    ∃ st', rollover_blocks maxBlocks st = some st' ∧
      st'.active_block_state =
        enforce_capacity_spec maxBlocks.toNat st.active_block_state ∧
      st'.script_history = st.script_history := by
  by_cases hcap : (st.active_block_state.length : Int) > maxBlocks
  · have hp1 := rolloverPass1_spec maxBlocks hm st.active_block_state.length
      st.active_block_state st.block_start_time (Nat.le_refl _) hnd
    obtain ⟨bst2, h1⟩ := rolloverPass2_spec maxBlocks hm
      (rolloverPass1 maxBlocks
        (PyDict.keys (st.active_block_state.filter (fun p => p.2 == Color.red)))
        st.active_block_state st.block_start_time).1
      (rolloverPass1 maxBlocks
        (PyDict.keys (st.active_block_state.filter (fun p => p.2 == Color.red)))
        st.active_block_state st.block_start_time).2
    refine ⟨_, rollover_blocks_eq_of_passes maxBlocks st _ _ _ bst2
      (by rw [if_pos hcap]) h1, ?_, rfl⟩
    rw [hp1]
    rfl
  · obtain ⟨bst2, h1⟩ := rolloverPass2_spec maxBlocks hm
      st.active_block_state st.block_start_time
    refine ⟨_, rollover_blocks_eq_of_passes maxBlocks st _ _ _ bst2
      (by rw [if_neg hcap]) h1, ?_, rfl⟩
    unfold enforce_capacity_spec
    rw [specPhase1, dif_neg (by
      rintro ⟨h1x, _⟩
      omega)]

/-- `rollover_blocks` preserves the status-since key-set invariant on
well-formed stores. -/
theorem rollover_blocks_inv (maxBlocks : Int) (st st' : Store)
    (hm : 0 ≤ maxBlocks)
    (hnd : PyDict.NodupKeys st.active_block_state)
    (hinv : SinceInvariant st)
    (h : rollover_blocks maxBlocks st = some st') : SinceInvariant st' := by
  by_cases hcap : (st.active_block_state.length : Int) > maxBlocks
  · obtain ⟨hnd1, hinv1⟩ := rolloverPass1_inv maxBlocks
      (PyDict.keys (st.active_block_state.filter (fun p => p.2 == Color.red)))
      st.active_block_state st.block_start_time hnd hinv
    obtain ⟨abs2, bst2, hp, _⟩ := rolloverPass2_some maxBlocks hm
      (rolloverPass1 maxBlocks (PyDict.keys (st.active_block_state.filter
        (fun p => p.2 == Color.red))) st.active_block_state st.block_start_time).1
      (rolloverPass1 maxBlocks (PyDict.keys (st.active_block_state.filter
        (fun p => p.2 == Color.red))) st.active_block_state st.block_start_time).2
    have heq := rollover_blocks_eq_of_passes maxBlocks st _ _ abs2 bst2
      (by rw [if_pos hcap]) hp
    rw [heq] at h
    obtain rfl := (Option.some.inj h).symm
    intro n hn
    exact rolloverPass2_inv maxBlocks _ _ abs2 bst2 hnd1 hinv1 hp n hn
  · obtain ⟨abs2, bst2, hp, _⟩ := rolloverPass2_some maxBlocks hm
      st.active_block_state st.block_start_time
    have heq := rollover_blocks_eq_of_passes maxBlocks st _ _ abs2 bst2
      (by rw [if_neg hcap]) hp
    rw [heq] at h
    obtain rfl := (Option.some.inj h).symm
    intro n hn
    exact rolloverPass2_inv maxBlocks _ _ abs2 bst2 hnd hinv hp n hn

/-- `update_live_status` is the second loop run after the first loop. -/
theorem update_live_status_decompose (active : List String) (ct now : Int)
    (st : Store) :
    update_live_status active ct now st =
      (PyDict.keys ((active.foldl (processActive now) st).active_block_state)).foldlM
        (processInactive active ct now) (active.foldl (processActive now) st) := rfl

/-- The reconciler succeeds on every well-formed store: every key the
second loop visits is either in the active snapshot or still present when
its turn comes. -/
theorem update_live_status_total (active : List String) (ct now : Int)
    (st : Store) (hnd : PyDict.NodupKeys st.active_block_state) :
    ∃ st', update_live_status active ct now st = some st' := by
  rw [update_live_status_decompose]
  exact foldlM_processInactive_isSome active ct now
    (PyDict.keys ((active.foldl (processActive now) st).active_block_state))
    (active.foldl (processActive now) st)
    (foldl_processActive_nodup now active st hnd)
    (fun k hk => Or.inr ((PyDict.mem_keys_iff _ k).mp hk))

/-- Evaluating `rollover_blocks` to a failure from the two passes'
results. -/
theorem rollover_blocks_none_of_passes (maxBlocks : Int) (st : Store)
    (abs : List (String × Color)) (bst : List (String × Int))
    (hp1 : (if (st.active_block_state.length : Int) > maxBlocks then
        rolloverPass1 maxBlocks
          (PyDict.keys (st.active_block_state.filter (fun p => p.2 == Color.red)))
          st.active_block_state st.block_start_time
      else (st.active_block_state, st.block_start_time)) = (abs, bst))
    (hp2 : rolloverPass2 maxBlocks abs bst = none) :
    rollover_blocks maxBlocks st = none := by
  unfold rollover_blocks
  rw [hp1]
  simp only [hp2]

/-- Capacity eviction never touches `script_history`. -/
theorem rollover_blocks_history (maxB : Int) (st st' : Store)
    (h : rollover_blocks maxB st = some st') :
    st'.script_history = st.script_history := by
  by_cases hcap : (st.active_block_state.length : Int) > maxB
  · cases hp : rolloverPass2 maxB
        (rolloverPass1 maxB (PyDict.keys
          (st.active_block_state.filter (fun p => p.2 == Color.red)))
          st.active_block_state st.block_start_time).1
        (rolloverPass1 maxB (PyDict.keys
          (st.active_block_state.filter (fun p => p.2 == Color.red)))
          st.active_block_state st.block_start_time).2 with
    | none =>
        rw [rollover_blocks_none_of_passes maxB st _ _
          (by rw [if_pos hcap]) hp] at h
        cases h
    | some pr =>
        obtain ⟨abs2, bst2⟩ := pr
        rw [rollover_blocks_eq_of_passes maxB st _ _ abs2 bst2
          (by rw [if_pos hcap]) hp] at h
        obtain rfl := (Option.some.inj h).symm
        rfl
  · cases hp : rolloverPass2 maxB st.active_block_state st.block_start_time with
    | none =>
        rw [rollover_blocks_none_of_passes maxB st _ _
          (by rw [if_neg hcap]) hp] at h
        cases h
    | some pr =>
        obtain ⟨abs2, bst2⟩ := pr
        rw [rollover_blocks_eq_of_passes maxB st _ _ abs2 bst2
          (by rw [if_neg hcap]) hp] at h
        obtain rfl := (Option.some.inj h).symm
        rfl

/-- Claim C1: entity lifecycle through reconcile.  From an empty store,
reconciling with active set `{"a"}` at `T0` yields RUNNING/`T0`/history
`[T0]`; reconciling with the empty set and a 60-second linger at `T0+10`
yields STOPPED with `since = T0+10`; reconciling again at `T0+80` removes
`"a"` from `status` and `since`. -/
theorem C1_entity_lifecycle (T0 : Int) :
    update_live_status ["a"] 60 T0
      { active_block_state := [], block_start_time := [], script_history := [] }
      = some (storeA T0) ∧
    update_live_status [] 60 (T0 + 10) (storeA T0) = some (storeB T0) ∧
    update_live_status [] 60 (T0 + 80) (storeB T0) = some (storeC T0) ∧
    statusOf (storeC T0) "a" = none ∧ sinceOf (storeC T0) "a" = none := by
  refine ⟨rfl, rfl, ?_, rfl, rfl⟩
  have h : (60 : Int) ≤ T0 + 80 - (T0 + 10) := by omega
  simp [update_live_status, processInactive, PyDict.find?, PyDict.keys,
    PyDict.erase, storeB, storeC, statusOf, sinceOf, h]

/-- Closed instance of the C1 lifecycle at `T0 = 0`. -/
theorem C1_entity_lifecycle_witness :
    update_live_status ["a"] 60 0
      { active_block_state := [], block_start_time := [], script_history := [] }
      = some (storeA 0) ∧
    update_live_status [] 60 10 (storeA 0) = some (storeB 0) ∧
    update_live_status [] 60 80 (storeB 0) = some (storeC 0) ∧
    statusOf (storeC 0) "a" = none ∧ sinceOf (storeC 0) "a" = none := by
  have h := C1_entity_lifecycle 0
  norm_num at h ⊢
  exact h

/-- Claim C2: capacity enforcement is the deterministic two-pass eviction
of the spec (evict STOPPED entries oldest-inserted-first until capacity is
satisfied or no STOPPED entries remain, then evict oldest-inserted-first
regardless of status); in particular, for the store x:STOPPED, y:RUNNING,
z:STOPPED inserted in that order, `enforce_capacity(store, 1)` leaves
exactly "y". -/
theorem C2_two_pass_eviction :
    (∀ (st : Store) (maxB : Int), 0 ≤ maxB →
      PyDict.NodupKeys st.active_block_state →
      ∃ st', rollover_blocks maxB st = some st' ∧
        st'.active_block_state =
          enforce_capacity_spec maxB.toNat st.active_block_state) ∧
    rollover_blocks 1
      { active_block_state :=
          [("x", Color.red), ("y", Color.green), ("z", Color.red)]
        block_start_time := [("x", 0), ("y", 0), ("z", 0)]
        script_history := [] } =
      some { active_block_state := [("y", Color.green)]
             block_start_time := [("y", 0)]
             script_history := [] } := by
  constructor
  · intro st maxB hm hnd
    obtain ⟨st', h1, h2, _⟩ := rollover_blocks_spec maxB st hm hnd
    exact ⟨st', h1, h2⟩
  · decide

/-- Closed instance of C2 at scenario E's store and capacity 1. -/
theorem C2_two_pass_eviction_witness :
    (0 : Int) ≤ 1 ∧
    PyDict.NodupKeys
      ([("x", Color.red), ("y", Color.green), ("z", Color.red)] :
        List (String × Color)) ∧
    ∃ st', rollover_blocks 1
        { active_block_state :=
            [("x", Color.red), ("y", Color.green), ("z", Color.red)]
          block_start_time := [("x", 0), ("y", 0), ("z", 0)]
          script_history := [] } = some st' ∧
      st'.active_block_state =
        enforce_capacity_spec (1 : Int).toNat
          [("x", Color.red), ("y", Color.green), ("z", Color.red)] :=
  ⟨by decide, by decide,
    C2_two_pass_eviction.1
      { active_block_state :=
          [("x", Color.red), ("y", Color.green), ("z", Color.red)]
        block_start_time := [("x", 0), ("y", 0), ("z", 0)]
        script_history := [] } 1 (by decide) (by decide)⟩

/-- Claim C3: monotonic linger.  For an entity that is STOPPED with
`since = t0` at the start of a reconcile call on a well-formed store: a
call with `now < t0 + linger` never removes it, and a call with
`now >= t0 + linger` in which it is absent from the active snapshot
removes it from status and since. -/
theorem C3_monotonic_linger (st : Store) (e : String) (t0 : Int)
    (active : List String) (ct now : Int) (st' : Store)
    (hnda : PyDict.NodupKeys st.active_block_state)
    (hndb : PyDict.NodupKeys st.block_start_time)
    (hs : statusOf st e = some Color.red)
    (ht : sinceOf st e = some t0)
    (hupd : update_live_status active ct now st = some st') :
    (now < t0 + ct → statusOf st' e ≠ none) ∧
    (e ∉ active → t0 + ct ≤ now →
      statusOf st' e = none ∧ sinceOf st' e = none) := by
  rw [update_live_status_decompose] at hupd
  have hnd1 : PyDict.NodupKeys
      ((active.foldl (processActive now) st).active_block_state) :=
    foldl_processActive_nodup now active st hnda
  have hnd1b : PyDict.NodupKeys
      ((active.foldl (processActive now) st).block_start_time) :=
    foldl_processActive_nodup_bst now active st hndb
  constructor
  · intro hlt
    by_cases hmem : e ∈ active
    · obtain ⟨g1, g2, g3⟩ := foldl_processActive_activation now active st e hmem
        (by rw [hs]; simp)
      obtain ⟨q1, q2⟩ := foldlM_processInactive_mem_active active ct now _ _ st' e
        hupd hmem
      rw [q1, g1]
      simp
    · obtain ⟨g1, g2, g3⟩ := foldl_processActive_not_mem now active st e hmem
      have hs1 : statusOf (active.foldl (processActive now) st) e
          = some Color.red := g1.trans hs
      have ht1 : sinceOf (active.foldl (processActive now) st) e
          = some t0 := g2.trans ht
      have hmem_l : e ∈ PyDict.keys
          ((active.foldl (processActive now) st).active_block_state) :=
        (PyDict.mem_keys_iff _ e).mpr (by rw [statusOf] at hs1; rw [hs1]; simp)
      obtain ⟨q1, q2⟩ := foldlM_processInactive_stay active ct now t0 _ _ st' e
        hupd hnd1 hmem_l hmem hs1 ht1 (by omega)
      rw [q1]
      simp
  · intro hmem hle
    obtain ⟨g1, g2, g3⟩ := foldl_processActive_not_mem now active st e hmem
    have hs1 : statusOf (active.foldl (processActive now) st) e
        = some Color.red := g1.trans hs
    have ht1 : sinceOf (active.foldl (processActive now) st) e
        = some t0 := g2.trans ht
    have hmem_l : e ∈ PyDict.keys
        ((active.foldl (processActive now) st).active_block_state) :=
      (PyDict.mem_keys_iff _ e).mpr (by rw [statusOf] at hs1; rw [hs1]; simp)
    exact foldlM_processInactive_expire active ct now t0 _ _ st' e hupd
      hnd1 hnd1 hnd1b hmem_l hmem hs1 ht1 (by omega)

/-- Closed instance of C3: "a" stopped at 0 with a 60-second linger is
removed by the reconcile at time 100 where it is absent. -/
theorem C3_monotonic_linger_witness :
    PyDict.NodupKeys ([("a", Color.red)] : List (String × Color)) ∧
    PyDict.NodupKeys ([("a", (0 : Int))] : List (String × Int)) ∧
    statusOf ⟨[("a", Color.red)], [("a", 0)], []⟩ "a" = some Color.red ∧
    sinceOf ⟨[("a", Color.red)], [("a", 0)], []⟩ "a" = some 0 ∧
    update_live_status [] 60 100 ⟨[("a", Color.red)], [("a", 0)], []⟩ =
      some ⟨[], [], []⟩ ∧
    ("a" ∉ ([] : List String) → (0 : Int) + 60 ≤ 100 →
      statusOf ⟨[], [], []⟩ "a" = none ∧ sinceOf ⟨[], [], []⟩ "a" = none) :=
  ⟨by decide, by decide, rfl, rfl, by decide,
    (C3_monotonic_linger ⟨[("a", Color.red)], [("a", 0)], []⟩ "a" 0 [] 60 100
      ⟨[], [], []⟩ (by decide) (by decide) rfl rfl (by decide)).2⟩

/-- Claim C4 is false on the code: at `T0 = 0`, the linger-expiry removal
deletes "a" from status and since but leaves its `activation_history`
entry `[0]` in place, and capacity eviction likewise removes "x" from
status and since while `script_history` keeps `[0]` for "x". -/
theorem C4_history_deleted_counterexample :
    update_live_status [] 60 80 (storeB 0) = some (storeC 0) ∧
    statusOf (storeC 0) "a" = none ∧ sinceOf (storeC 0) "a" = none ∧
    ¬ historyOf (storeC 0) "a" = none ∧
    historyOf (storeC 0) "a" = some [0] ∧
    rollover_blocks 0 ⟨[("x", Color.red)], [("x", 0)], [("x", [0])]⟩ =
      some ⟨[], [], [("x", [0])]⟩ := by
  refine ⟨by decide, rfl, rfl, by decide, rfl, by decide⟩

/-- Claim C4 (amended): a removal deletes the entity's entries in status
and since but retains `activation_history`: the reconciler never deletes a
history entry (it can only append the single timestamp `now`), and
capacity eviction leaves `script_history` entirely unchanged. -/
theorem C4_amended_history_outlives_removal :
    (∀ (st : Store) (active : List String) (ct now : Int) (st' : Store),
      update_live_status active ct now st = some st' →
      ∀ (e : String) (h : List Int), historyOf st e = some h →
        historyOf st' e = some h ∨ historyOf st' e = some (h ++ [now])) ∧
    (∀ (maxB : Int) (st st' : Store),
      rollover_blocks maxB st = some st' →
      st'.script_history = st.script_history) := by
  constructor
  · intro st active ct now st' hupd e h hh
    rw [update_live_status_decompose] at hupd
    have hist_eq := foldlM_processInactive_history active ct now _ _ st' hupd
    have heq : historyOf st' e =
        historyOf (active.foldl (processActive now) st) e := by
      unfold historyOf
      rw [hist_eq]
    rcases foldl_processActive_history now active st e h (Or.inl hh)
      with h1 | ⟨h1, _⟩
    · exact Or.inl (heq.trans h1)
    · exact Or.inr (heq.trans h1)
  · intro maxB st st' h
    exact rollover_blocks_history maxB st st' h

/-- Closed instance of the amended C4: the eviction of "a" at time 80
keeps its history `[0]` unchanged. -/
theorem C4_amended_history_outlives_removal_witness :
    update_live_status [] 60 80 (storeB 0) = some (storeC 0) ∧
    historyOf (storeB 0) "a" = some [0] ∧
    (historyOf (storeC 0) "a" = some [0] ∨
      historyOf (storeC 0) "a" = some ([0] ++ [80])) :=
  ⟨by decide, rfl,
    C4_amended_history_outlives_removal.1 (storeB 0) [] 60 80 (storeC 0)
      (by decide) "a" [0] rfl⟩

/-- Claim C5: reactivation semantics.  When reconcile finds a STOPPED
entity in the active snapshot it sets it RUNNING, resets since to `now`
and appends exactly the one timestamp `now` to its history; an entity
already RUNNING and present keeps its since and history untouched.
Concretely, from scenario B, reconciling with active `{"a"}` at `T0+15`
gives RUNNING, since `T0+15`, history `[T0, T0+15]`. -/
theorem C5_reactivation (st : Store) (active : List String) (ct now : Int)
    (e : String) (st' : Store) (hmem : e ∈ active)
    (hupd : update_live_status active ct now st = some st') :
    (statusOf st e = some Color.red →
      statusOf st' e = some Color.green ∧ sinceOf st' e = some now ∧
      historyOf st' e = some ((historyOf st e).getD [] ++ [now])) ∧
    (statusOf st e = some Color.green →
      statusOf st' e = some Color.green ∧ sinceOf st' e = sinceOf st e ∧
      historyOf st' e = historyOf st e) ∧
    ∀ T0 : Int,
      update_live_status ["a"] 60 (T0 + 15) (storeB T0) = some (storeD T0) := by
  rw [update_live_status_decompose] at hupd
  have hist_eq := foldlM_processInactive_history active ct now _ _ st' hupd
  have heq : historyOf st' e =
      historyOf (active.foldl (processActive now) st) e := by
    unfold historyOf
    rw [hist_eq]
  refine ⟨?_, ?_, fun T0 => rfl⟩
  · intro hred
    obtain ⟨g1, g2, g3⟩ := foldl_processActive_activation now active st e hmem
      (by rw [hred]; simp)
    obtain ⟨q1, q2⟩ := foldlM_processInactive_mem_active active ct now _ _ st' e
      hupd hmem
    exact ⟨q1.trans g1, q2.trans g2, heq.trans g3⟩
  · intro hgreen
    obtain ⟨g1, g2, g3⟩ := foldl_processActive_of_green now active st e hgreen
    obtain ⟨q1, q2⟩ := foldlM_processInactive_mem_active active ct now _ _ st' e
      hupd hmem
    exact ⟨q1.trans g1, q2.trans g2, heq.trans g3⟩

/-- Closed instance of C5: reactivating "a" (STOPPED since 10, history
`[0]`) at time 15 yields RUNNING, since 15, history `[0, 15]`. -/
theorem C5_reactivation_witness :
    "a" ∈ ["a"] ∧
    update_live_status ["a"] 60 15 (storeB 0) = some (storeD 0) ∧
    (statusOf (storeB 0) "a" = some Color.red →
      statusOf (storeD 0) "a" = some Color.green ∧
      sinceOf (storeD 0) "a" = some 15 ∧
      historyOf (storeD 0) "a" =
        some ((historyOf (storeB 0) "a").getD [] ++ [15])) :=
  ⟨by decide, by decide,
    (C5_reactivation (storeB 0) ["a"] 60 15 "a" (storeD 0)
      (by decide) (by decide)).1⟩

/-- Claim C6: no same-cycle removal.  An entity RUNNING at the start of a
reconcile call is never removed by that call, even with a zero linger: if
it is absent it is only flagged STOPPED with `since = now`; with zero
linger it is removed on the next call where it is still absent, as the
concrete zero-linger chain shows. -/
theorem C6_no_same_cycle_removal (st : Store) (active : List String)
    (ct now : Int) (e : String) (st' : Store)
    (hnd : PyDict.NodupKeys st.active_block_state)
    (hgreen : statusOf st e = some Color.green)
    (hupd : update_live_status active ct now st = some st') :
    (statusOf st' e ≠ none ∧
      (e ∉ active →
        statusOf st' e = some Color.red ∧ sinceOf st' e = some now)) ∧
    (update_live_status ["a"] 0 0 ⟨[], [], []⟩ = some (storeA 0) ∧
      update_live_status [] 0 0 (storeA 0) =
        some ⟨[("a", Color.red)], [("a", 0)], [("a", [0])]⟩ ∧
      update_live_status [] 0 0 ⟨[("a", Color.red)], [("a", 0)], [("a", [0])]⟩ =
        some ⟨[], [], [("a", [0])]⟩) := by
  rw [update_live_status_decompose] at hupd
  have hnd1 : PyDict.NodupKeys
      ((active.foldl (processActive now) st).active_block_state) :=
    foldl_processActive_nodup now active st hnd
  refine ⟨?_, by decide, by decide, by decide⟩
  obtain ⟨g1, g2, g3⟩ := foldl_processActive_of_green now active st e hgreen
  by_cases hmem : e ∈ active
  · obtain ⟨q1, q2⟩ := foldlM_processInactive_mem_active active ct now _ _ st' e
      hupd hmem
    constructor
    · rw [q1, g1]
      simp
    · intro hx
      exact absurd hmem hx
  · have hmem_l : e ∈ PyDict.keys
        ((active.foldl (processActive now) st).active_block_state) :=
      (PyDict.mem_keys_iff _ e).mpr (by rw [statusOf] at g1; rw [g1]; simp)
    obtain ⟨q1, q2⟩ := foldlM_processInactive_stop active ct now _ _ st' e
      hupd hnd1 hmem_l hmem g1
    constructor
    · rw [q1]
      simp
    · intro hx
      exact ⟨q1, q2⟩

/-- Closed instance of C6: RUNNING "a" absent from an empty snapshot with
zero linger is flagged STOPPED, not removed, by that same call. -/
theorem C6_no_same_cycle_removal_witness :
    PyDict.NodupKeys ([("a", Color.green)] : List (String × Color)) ∧
    statusOf (storeA 0) "a" = some Color.green ∧
    update_live_status [] 0 0 (storeA 0) =
      some ⟨[("a", Color.red)], [("a", 0)], [("a", [0])]⟩ ∧
    (statusOf ⟨[("a", Color.red)], [("a", 0)], [("a", [0])]⟩ "a" ≠ none ∧
      ("a" ∉ ([] : List String) →
        statusOf ⟨[("a", Color.red)], [("a", 0)], [("a", [0])]⟩ "a"
          = some Color.red ∧
        sinceOf ⟨[("a", Color.red)], [("a", 0)], [("a", [0])]⟩ "a"
          = some 0)) :=
  ⟨by decide, rfl, by decide,
    (C6_no_same_cycle_removal (storeA 0) [] 0 0 "a"
      ⟨[("a", Color.red)], [("a", 0)], [("a", [0])]⟩
      (by decide) rfl (by decide)).1⟩

/-- Claim C7: capacity postcondition.  For every store and every capacity
`N >= 0`, `enforce_capacity` succeeds and leaves at most `N` entities, and
it is the identity on a store already within capacity. -/
theorem C7_capacity_postcondition (st : Store) (maxB : Int) (hm : 0 ≤ maxB) :
    (∃ st', rollover_blocks maxB st = some st' ∧
      (st'.active_block_state.length : Int) ≤ maxB) ∧
    ((st.active_block_state.length : Int) ≤ maxB →
      rollover_blocks maxB st = some st) := by
  constructor
  · obtain ⟨st', h1, h2, _⟩ := rollover_blocks_some maxB st hm
    exact ⟨st', h1, h2⟩
  · intro hlen
    exact rollover_blocks_noop maxB st hm hlen

/-- Closed instance of C7 at a one-entry store and capacity 1. -/
theorem C7_capacity_postcondition_witness :
    (0 : Int) ≤ 1 ∧
    ((∃ st', rollover_blocks 1 ⟨[("y", Color.green)], [("y", 0)], []⟩
        = some st' ∧ (st'.active_block_state.length : Int) ≤ 1) ∧
      (((⟨[("y", Color.green)], [("y", 0)], []⟩ :
          Store).active_block_state.length : Int) ≤ 1 →
        rollover_blocks 1 ⟨[("y", Color.green)], [("y", 0)], []⟩ =
          some ⟨[("y", Color.green)], [("y", 0)], []⟩)) :=
  ⟨by decide,
    C7_capacity_postcondition ⟨[("y", Color.green)], [("y", 0)], []⟩ 1
      (by decide)⟩

/-- Claim C8: snapshot consistency.  After any complete reconcile call on a
well-formed store, every entity whose status is RUNNING is a member of the
active snapshot used by that call. -/
theorem C8_running_implies_active (st : Store) (active : List String)
    (ct now : Int) (st' : Store)
    (hnd : PyDict.NodupKeys st.active_block_state)
    (hupd : update_live_status active ct now st = some st') :
    ∀ e, statusOf st' e = some Color.green → e ∈ active := by
  rw [update_live_status_decompose] at hupd
  intro e hg
  rcases foldlM_processInactive_green active ct now _ _ st' e
    (foldl_processActive_nodup now active st hnd) hupd hg with h | ⟨hg1, hnm⟩
  · exact h
  · exact absurd ((PyDict.mem_keys_iff _ e).mpr
      (by rw [statusOf] at hg1; rw [hg1]; simp)) hnm

/-- Closed instance of C8: after reconciling with active snapshot `["a"]`,
"a" being RUNNING implies "a" is in the snapshot. -/
theorem C8_running_implies_active_witness :
    PyDict.NodupKeys ([("a", Color.green)] : List (String × Color)) ∧
    update_live_status ["a"] 60 5 ⟨[("a", Color.green)], [("a", 0)], []⟩ =
      some ⟨[("a", Color.green)], [("a", 0)], []⟩ ∧
    (statusOf ⟨[("a", Color.green)], [("a", 0)], []⟩ "a" = some Color.green →
      "a" ∈ ["a"]) :=
  ⟨by decide, by decide,
    C8_running_implies_active ⟨[("a", Color.green)], [("a", 0)], []⟩ ["a"]
      60 5 ⟨[("a", Color.green)], [("a", 0)], []⟩ (by decide) (by decide) "a"⟩

/-- Claim C9: store key-set invariant.  On a well-formed store where every
name in status has a since entry, the same holds after any reconcile call
and after any capacity-enforcement call with non-negative capacity. -/
theorem C9_since_keyset_invariant (st : Store)
    (hnd : PyDict.NodupKeys st.active_block_state)
    (hinv : SinceInvariant st) :
    (∀ (active : List String) (ct now : Int) (st' : Store),
      update_live_status active ct now st = some st' → SinceInvariant st') ∧
    (∀ (maxB : Int) (st' : Store), 0 ≤ maxB →
      rollover_blocks maxB st = some st' → SinceInvariant st') := by
  constructor
  · intro active ct now st' hupd
    rw [update_live_status_decompose] at hupd
    exact foldlM_processInactive_inv active ct now _ _ st' hupd
      (foldl_processActive_nodup now active st hnd)
      (foldl_processActive_inv now active st hinv)
  · intro maxB st' hm h
    exact rollover_blocks_inv maxB st st' hm hnd hinv h

/-- Closed instance of C9: the invariant holds for "a" after reconciling
the one-entry store with an empty snapshot. -/
theorem C9_since_keyset_invariant_witness :
    PyDict.NodupKeys ([("a", Color.green)] : List (String × Color)) ∧
    SinceInvariant ⟨[("a", Color.green)], [("a", 0)], []⟩ ∧
    (statusOf ⟨[("a", Color.red)], [("a", 7)], []⟩ "a" ≠ none →
      sinceOf ⟨[("a", Color.red)], [("a", 7)], []⟩ "a" ≠ none) := by
  have hinv0 : SinceInvariant ⟨[("a", Color.green)], [("a", 0)], []⟩ := by
    intro n hsn
    by_cases hn : "a" = n
    · simp [sinceOf, PyDict.find?, hn]
    · simp [statusOf, PyDict.find?, hn] at hsn
  refine ⟨by decide, hinv0, ?_⟩
  exact (C9_since_keyset_invariant ⟨[("a", Color.green)], [("a", 0)], []⟩
    (by decide) hinv0).1 [] 60 7 ⟨[("a", Color.red)], [("a", 7)], []⟩
    (by decide) "a"

/-- Claim C10: totality.  On well-typed input (a duplicate-free snapshot,
non-negative linger, non-negative capacity, a well-formed store) both
`update_live_status` and `rollover_blocks` terminate with a result and hit
no failure point (no `KeyError`, no `StopIteration`). -/
theorem C10_totality (st : Store) (active : List String) (ct now maxB : Int)
    (_hset : active.Nodup) (hnd : PyDict.NodupKeys st.active_block_state)
    (_hct : 0 ≤ ct) (hmax : 0 ≤ maxB) :
    (update_live_status active ct now st).isSome ∧
    (rollover_blocks maxB st).isSome := by
  constructor
  · obtain ⟨st', h⟩ := update_live_status_total active ct now st hnd
    rw [h]
    rfl
  · obtain ⟨st', h, _⟩ := rollover_blocks_some maxB st hmax
    rw [h]
    rfl

/-- Closed instance of C10 at a concrete snapshot, store and capacity. -/
theorem C10_totality_witness :
    (["b"] : List String).Nodup ∧
    PyDict.NodupKeys ([("a", Color.green)] : List (String × Color)) ∧
    (0 : Int) ≤ 60 ∧ (0 : Int) ≤ 3 ∧
    (update_live_status ["b"] 60 5
      ⟨[("a", Color.green)], [("a", 0)], []⟩).isSome ∧
    (rollover_blocks 3 ⟨[("a", Color.green)], [("a", 0)], []⟩).isSome :=
  ⟨by decide, by decide, by decide, by decide,
    (C10_totality ⟨[("a", Color.green)], [("a", 0)], []⟩ ["b"] 60 5 3
      (by decide) (by decide) (by decide) (by decide)).1,
    (C10_totality ⟨[("a", Color.green)], [("a", 0)], []⟩ ["b"] 60 5 3
      (by decide) (by decide) (by decide) (by decide)).2⟩

end RemoteMonitor
